import Mathlib

/-!
Verification of the SG200 / Netgear scraper engine.

The development shallowly embeds the pure decoding core of the repository:

* `scrapers/sg200_client.py` (collector-1.1, the canonical copy): the indexed
  hidden-field MAC table decoder (`_parse_dynamic_mac_table`, `_format_mac`),
  the port-name resolution step of `fetch_mac_table`, and the system-summary
  decoder (`_parse_system_summary`) together with the post-location logic of
  `fetch_system_summary`.
* `scrapers/netgear_client.py`: the delimited embedded-variable decoder
  (`parse_access_control_html`, `_normalize_mac`).

Python strings are modelled as `List Char`; an HTML page is modelled at the
level the decoders consume it: the list of `input` elements (name/value
attribute pairs) for the SG200 pages, and the list of regex matches
(ordinal, captured string) for the Netgear page, since the surrounding
HTML/regex machinery is third-party library code.  Python `dict`s are
modelled as association lists with insert-or-overwrite-in-place semantics,
which reproduces insertion-order iteration.
-/

/-- Python strings are modelled as lists of characters. -/
abbrev Str := List Char

/-! ## Python string primitives -/

/-- Characters stripped by Python `str.strip()` with no arguments
(space, tab, newline, carriage return, vertical tab, form feed). -/
def isPySpace (c : Char) : Bool :=
  c.toNat = 32 || c.toNat = 9 || c.toNat = 10 || c.toNat = 13 ||
  c.toNat = 11 || c.toNat = 12

/-- Python `str.strip()`: drop leading and trailing whitespace. -/
def pyStrip (s : Str) : Str :=
  ((s.dropWhile isPySpace).reverse.dropWhile isPySpace).reverse

/-- Python `str.strip(chars)`: drop leading and trailing characters from `cs`. -/
def pyStripChars (cs : List Char) (s : Str) : Str :=
  ((s.dropWhile (cs.contains ·)).reverse.dropWhile (cs.contains ·)).reverse

/-- ASCII lower-casing of one character (`str.lower` on the ASCII inputs the
device pages produce): codes 65-90 are the upper-case letters. -/
def pyLowerChar (c : Char) : Char :=
  if 65 ≤ c.toNat ∧ c.toNat ≤ 90 then Char.ofNat (c.toNat + 32) else c

/-- Python `str.lower()` on ASCII strings. -/
def pyLower (s : Str) : Str := s.map pyLowerChar

/-- Python `str.replace(c, "")`: remove every occurrence of character `c`. -/
def removeChar (c : Char) (s : Str) : Str := s.filter (· ≠ c)

/-- Decimal digit test (codes 48-57 are the digits). -/
def isDigitCh (c : Char) : Bool := 48 ≤ c.toNat && c.toNat ≤ 57

/-- Lower-case hex digit test (`c in "0123456789abcdef"`; codes 97-102 are
the letters a-f). -/
def isHexLower (c : Char) : Bool := isDigitCh c || (97 ≤ c.toNat && c.toNat ≤ 102)

/-- After the leading digit, Python integer literals accepted by `int()` are
digits with single underscores strictly between digits. -/
def pyDigitsCore : Str → Bool
  | [] => true
  | '_' :: rest =>
    match rest with
    | c :: _ => isDigitCh c && pyDigitsCore rest
    | [] => false
  | c :: rest => isDigitCh c && pyDigitsCore rest

/-- A nonempty digit run acceptable to `int()` after the optional sign. -/
def pyDigitsValid : Str → Bool
  | [] => false
  | c :: rest => isDigitCh c && pyDigitsCore rest

/-- Numeric value of a digit run, ignoring underscores. -/
def digitsToNat (s : Str) : Nat :=
  (s.filter isDigitCh).foldl (fun a c => 10 * a + (c.toNat - 48)) 0

/-- Python `int(str)` on ASCII input: strip whitespace, optional sign,
then a digit run (single underscores between digits allowed); `none`
models the `ValueError` raised on anything else. -/
def pyInt (s : Str) : Option Int :=
  match pyStrip s with
  | '+' :: rest => if pyDigitsValid rest then some (digitsToNat rest : Int) else none
  | '-' :: rest => if pyDigitsValid rest then some (-(digitsToNat rest : Int)) else none
  | t => if pyDigitsValid t then some (digitsToNat t : Int) else none

/-- Digit character for `n % 10`. -/
def natDigitChar (n : Nat) : Char := Char.ofNat (48 + n % 10)

/-- Accumulator loop of decimal rendering, with structural fuel (the fuel
`n + 1` of `natToStr` always suffices). -/
def natToStrGo (fuel : Nat) (n : Nat) (acc : Str) : Str :=
  match fuel with
  | 0 => acc
  | fuel + 1 => if n = 0 then acc else natToStrGo fuel (n / 10) (natDigitChar (n % 10) :: acc)

/-- Python `str(n)` for a natural number. -/
def natToStr (n : Nat) : Str := if n = 0 then ['0'] else natToStrGo (n + 1) n []

/-- Python `str(i)` for an integer. -/
def intToStr (i : Int) : Str :=
  if i < 0 then '-' :: natToStr i.natAbs else natToStr i.natAbs

/-- Python `pre + s == name[:len(pre)]` test (`str.startswith`). -/
def listStartsWith : Str → Str → Bool
  | [], _ => true
  | _, [] => false
  | p :: ps, c :: cs => p = c && listStartsWith ps cs

/-- Chunks of two characters, `s[i:i+2] for i in range(0, len(s), 2)`. -/
def pairsOf : Str → List Str
  | [] => []
  | [c] => [[c]]
  | a :: b :: rest => [a, b] :: pairsOf rest

/-- Python `sep.join(parts)`. -/
def joinSep (sep : Str) : List Str → Str
  | [] => []
  | [x] => x
  | x :: xs => x ++ sep ++ joinSep sep xs

/-- Python `s.split(sep)` for a one-character separator: keeps empty pieces,
and the split of the empty string is one empty piece. -/
def pySplitChar (sep : Char) : Str → List Str
  | [] => [[]]
  | c :: rest =>
    if c = sep then [] :: pySplitChar sep rest
    else
      match pySplitChar sep rest with
      | w :: ws => (c :: w) :: ws
      | [] => [[c]]

/-- First-`some` choice, the shape of a Python `a or b` chain whose operands
are `None` or nonempty strings. -/
def optOr (a b : Option α) : Option α :=
  match a with
  | some x => some x
  | none => b

/-! ## Python dict primitives

Association lists with overwrite-in-place semantics: updating an existing
key keeps its position, inserting a new key appends.  This reproduces
Python dict insertion-order iteration. -/

/-- Python `d[k] = v`. -/
def dictInsert [DecidableEq α] (k : α) (v : β) : List (α × β) → List (α × β)
  | [] => [(k, v)]
  | (k', v') :: rest =>
    if k' = k then (k', v) :: rest else (k', v') :: dictInsert k v rest

/-- Python `d.get(k)`. -/
def dictGet [DecidableEq α] (k : α) : List (α × β) → Option β
  | [] => none
  | (k', v) :: rest => if k' = k then some v else dictGet k rest

/-! ## SG200 MAC table decoder (collector-1.1 `_parse_dynamic_mac_table`) -/

/-- One `input` element of the page: the `name` and `value` attributes,
each possibly absent. -/
structure InputField where
  name : Option Str
  value : Option Str
deriving DecidableEq

/-- Output record of `_parse_dynamic_mac_table` (dataclass `MacEntry`). -/
structure MacEntry where
  vlan : Int
  mac : Str
  port_index : Int
  switch_ip : Str
deriving DecidableEq

/-- Field-name family of the VLAN id. -/
def fdbIdPre : Str := "dot1qFdbId$repeat?".data

/-- Field-name family of the MAC hex string. -/
def addrPre : Str := "dot1qTpFdbAddress$repeat?".data

/-- Field-name family of the port index. -/
def portPre : Str := "dot1qTpFdbPort$repeat?".data

/-- The three parallel mappings keyed by repeat index. -/
structure MacDicts where
  vlan : List (Str × Int)
  mac : List (Str × Str)
  port : List (Str × Int)

/-- Processing of one `input` element by the scan loop of
`_parse_dynamic_mac_table`.  A field with no (or empty) name is skipped;
the suffix after the first `?` is the repeat index (the only `?` inside
each family name is the final character of the prefix, so
`name.split("?", 1)[1]` is the text after the prefix); integer values that
fail `int()` leave the mapping untouched. -/
def stepField (d : MacDicts) (f : InputField) : MacDicts :=
  match f.name with
  | none => d
  | some name =>
    if name = [] then d
    else
      let value := pyStrip (f.value.getD [])
      if listStartsWith fdbIdPre name then
        match pyInt value with
        | some v => { d with vlan := dictInsert (name.drop fdbIdPre.length) v d.vlan }
        | none => d
      else if listStartsWith addrPre name then
        { d with mac := dictInsert (name.drop addrPre.length) value d.mac }
      else if listStartsWith portPre name then
        match pyInt value with
        | some v => { d with port := dictInsert (name.drop portPre.length) v d.port }
        | none => d
      else d

/-- Collector-1.1 `_format_mac`: strip and lower-case; a 12-digit hex string,
or any even-length string of at least 12 characters, gets a colon every two
characters; everything else is returned as stripped/lowered. -/
def format_mac (s : Str) : Str :=
  let t := pyLower (pyStrip s)
  if t.length = 12 && t.all isHexLower then joinSep [':'] (pairsOf t)
  else if t.length % 2 = 0 && 12 ≤ t.length then joinSep [':'] (pairsOf t)
  else t

/-- Sort key of the final loop, `int(x)`; only evaluated under the guard
that every key parses. -/
def sortKey (s : Str) : Int := (pyInt s).getD 0

/-- Stable insertion into a list sorted by `sortKey` (a later element is
placed after existing equal keys, as Python `sorted` is stable). -/
def insSorted (x : Str) : List Str → List Str
  | [] => [x]
  | y :: ys => if sortKey x ≤ sortKey y then x :: y :: ys else y :: insSorted x ys

/-- Stable sort by `sortKey`, modelling `sorted(keys, key=lambda x: int(x))`. -/
def sortByKey (l : List Str) : List Str := l.foldr insSorted []

/-- Join step of the final loop: the entry built for one repeat index, or
`none` when the index is missing from a mapping or its MAC value is empty
(`if not mac_hex or vlan is None or port_index is None: continue`). -/
def joinIdx (d : MacDicts) (ip : Str) (idx : Str) : Option MacEntry :=
  match dictGet idx d.mac, dictGet idx d.vlan, dictGet idx d.port with
  | some mac_hex, some vlan, some port =>
    if mac_hex = [] then none
    else some { vlan := vlan, mac := format_mac mac_hex, port_index := port, switch_ip := ip }
  | _, _, _ => none

/-- The three mappings built from the page. -/
def buildDicts (fields : List InputField) : MacDicts :=
  fields.foldl stepField ⟨[], [], []⟩

/-- Collector-1.1 `_parse_dynamic_mac_table` over the page's input elements.
`none` models the uncaught `ValueError` raised by `int(x)` inside the sort
key when some MAC-family index is not an integer literal; otherwise the
joined entries in ascending numeric index order. -/
def parse_dynamic_mac_table (fields : List InputField) (ip : Str) : Option (List MacEntry) :=
  let d := buildDicts fields
  let keys := d.mac.map Prod.fst
  if keys.all (fun k => (pyInt k).isSome) then
    some ((sortByKey keys).filterMap (joinIdx d ip))
  else none

/-! ## SG200 `fetch_mac_table` port-name resolution (collector-1.1) -/

/-- Final dictionary rows of `fetch_mac_table`, with the resolved port. -/
structure ResolvedEntry where
  switch_ip : Str
  vlan : Int
  mac : Str
  port_index : Str
deriving DecidableEq

/-- Port resolution of one entry, `(name or str(raw)).strip()` where
`name = port_name_by_ifindex.get(raw)`. -/
def resolve_port (m : List (Int × Str)) (raw : Int) : Str :=
  match dictGet raw m with
  | some n => if n = [] then pyStrip (intToStr raw) else pyStrip n
  | none => pyStrip (intToStr raw)

/-- The result loop of `fetch_mac_table`: every parsed entry is emitted with
its port index resolved against the interface-name map. -/
def fetch_mac_table_resolve (m : List (Int × Str)) (entries : List MacEntry) :
    List ResolvedEntry :=
  entries.map (fun e =>
    { switch_ip := e.switch_ip, vlan := e.vlan, mac := e.mac
      port_index := resolve_port m e.port_index })

/-! ## Declarative view of the indexed hidden-field page

These definitions read the page directly (no dictionaries), and are the
reference point of the claims about `_parse_dynamic_mac_table`. -/

/-- The stripped values of all fields of family `pre` carrying repeat index
`idx`, in page order. -/
def famOccs (pre : Str) (fields : List InputField) (idx : Str) : List Str :=
  fields.filterMap (fun f =>
    match f.name with
    | some name => if name = pre ++ idx then some (pyStrip (f.value.getD [])) else none
    | none => none)

/-- The VLAN id recorded for an index: the last occurrence whose value is an
integer literal. -/
def vlanAt (fields : List InputField) (idx : Str) : Option Int :=
  ((famOccs fdbIdPre fields idx).filterMap pyInt).getLast?

/-- The MAC hex recorded for an index: the last occurrence's value. -/
def macAt (fields : List InputField) (idx : Str) : Option Str :=
  (famOccs addrPre fields idx).getLast?

/-- The port index recorded for an index: the last occurrence whose value is
an integer literal. -/
def portAt (fields : List InputField) (idx : Str) : Option Int :=
  ((famOccs portPre fields idx).filterMap pyInt).getLast?

/-- An index present in all three families, with integer VLAN and port
values and a nonempty MAC value: exactly the indices the decoder emits. -/
def completeIdx (fields : List InputField) (idx : Str) : Prop :=
  (vlanAt fields idx).isSome = true ∧
  (∃ m, macAt fields idx = some m ∧ m ≠ []) ∧
  (portAt fields idx).isSome = true

/-- Boolean form of `completeIdx`. -/
def completeB (fields : List InputField) (idx : Str) : Bool :=
  (vlanAt fields idx).isSome &&
  (match macAt fields idx with
   | some m => !(m.isEmpty)
   | none => false) &&
  (portAt fields idx).isSome

/-- The entry the decoder emits for a complete index. -/
def entryFor (fields : List InputField) (ip : Str) (idx : Str) : MacEntry :=
  { vlan := (vlanAt fields idx).getD 0
    mac := format_mac ((macAt fields idx).getD [])
    port_index := (portAt fields idx).getD 0
    switch_ip := ip }

/-! ## SG200 system summary (collector-1.1) -/

/-- Fingerprint of `_looks_like_system_summary`, at the level of the page's
input elements: one of the two stable hidden field names is present.  (The
source tests raw-HTML substring containment; a hidden input bearing the
name is what makes the token occur on the real pages.) -/
def looks_like_system_summary (fields : List InputField) : Bool :=
  fields.any (fun f =>
    f.name = some "rlPhdUnitGenParamSerialNum$repeat?1".data ||
    f.name = some "rlPhdUnitGenParamSwVer$repeat?1".data)

/-- Collector-1.1 `_get_input_value`: the first input with the given name;
`None` when absent, when it has no value attribute, or when the stripped
value is empty. -/
def get_input_value (fields : List InputField) (name : Str) : Option Str :=
  match fields.find? (fun f => f.name = some name) with
  | none => none
  | some f =>
    match f.value with
    | none => none
    | some v => if pyStrip v = [] then none else some (pyStrip v)

/-- Scan of `_extract_default_value`: the first position where
`Default value=` is followed by at least one non-semicolon character; the
capture is the run of non-semicolon characters after it (re
`Default value=([^;]+)`). -/
def searchDefaultValue (pat : Str) : Str → Option Str
  | [] => none
  | c :: rest =>
    if listStartsWith pat (c :: rest) then
      match (List.drop pat.length (c :: rest)).takeWhile (· ≠ ';') with
      | [] => searchDefaultValue pat rest
      | cap => some cap
    else searchDefaultValue pat rest

/-- Collector-1.1 `_extract_default_value`: the captured run, stripped,
`None` when the pattern is absent or the stripped capture is empty. -/
def extract_default_value (vt : Str) : Option Str :=
  match searchDefaultValue "Default value=".data vt with
  | none => none
  | some cap => if pyStrip cap = [] then none else some (pyStrip cap)

/-- Python `' '.join(s.replace(nbsp, ' ').split())`: whitespace-collapsed
form of a value. -/
def pyCollapse (s : Str) : Str :=
  joinSep [' ']
    ((s.map (fun c => if c = '\xa0' then ' ' else c)).splitOnP isPySpace
      |>.filter (· ≠ []))

/-- Collector-1.1 `_parse_system_summary`: the sparse mapping built from the
stable hidden inputs. -/
def parse_system_summary (fields : List InputField) : List (Str × Str) :=
  let out : List (Str × Str) := []
  let out := match get_input_value fields "sysName".data with
    | some v => dictInsert "host_name".data (pyStrip v) out
    | none => out
  let out := match get_input_value fields "sysContact".data with
    | some v => dictInsert "system_contact".data (pyStrip v) out
    | none => out
  let out := match get_input_value fields "sysLocation".data with
    | some v => dictInsert "system_location".data (pyStrip v) out
    | none => out
  let out := match optOr (optOr (get_input_value fields "sysDescr$scalar".data)
                  (get_input_value fields "sysDescr".data))
                  (get_input_value fields "rlPhdUnitGenParamDeviceDescr$repeat?1".data) with
    | some v => dictInsert "model_description".data (pyCollapse v) out
    | none => out
  let out := match optOr (optOr (get_input_value fields "rndImage1Version$repeat?1".data)
                  (get_input_value fields "rndImage2Version$repeat?1".data))
                  (get_input_value fields "rlPhdUnitGenParamSwVer$repeat?1".data) with
    | some v => dictInsert "firmware_version".data (pyStrip v) out
    | none => out
  let out := match optOr (get_input_value fields "rlPhdUnitGenParamSerialNum$repeat?1".data)
                  (extract_default_value
                    ((get_input_value fields "rlPhdUnitGenParamSerialNum$VT".data).getD [])) with
    | some v => dictInsert "serial_number".data (pyStrip v) out
    | none => out
  out

/-- Error text of `fetch_system_summary` when no candidate page matched. -/
def summaryErr : Str := "Unable to locate System Summary page after login.".data

/-- The tail of collector-1.1 `fetch_system_summary`, after page location:
`located` is the result of `_find_system_summary_html` (`None` when every
candidate was exhausted).  A located page is decoded and returned with
`switch_ip` added; only a missing page raises. -/
def fetch_system_summary_result (located : Option (List InputField)) (ip : Str) :
    Except Str (List (Str × Str)) :=
  match located with
  | none => Except.error summaryErr
  | some page => Except.ok (dictInsert "switch_ip".data ip (parse_system_summary page))

/-! ## Netgear access-control decoder (`netgear_client.py`) -/

/-- Dataclass `NetgearDevice`. -/
structure NetgearDevice where
  router_ip : Str
  ip : Str
  mac : Str
  status : Str
  conn_type : Str
  name : Option Str
deriving DecidableEq

/-- Netgear `_normalize_mac`: remove `:` and `-`, strip, lower-case; exactly
12 hex digits are re-joined with colons, anything else is rejected. -/
def normalize_mac (raw : Str) : Option Str :=
  if raw = [] then none
  else
    let mh := pyLower (pyStrip (removeChar '-' (removeChar ':' raw)))
    if mh.length = 12 && mh.all isHexLower then some (joinSep [':'] (pairsOf mh))
    else none

/-- Scan loop of `pyHtmlUnescape`; every step consumes at least one input
character, so the fuel `s.length` supplied by the wrapper always suffices. -/
def pyHtmlUnescapeGo : Nat → Str → Str
  | 0, s => s
  | _ + 1, [] => []
  | fuel + 1, '&' :: rest =>
    if listStartsWith "amp;".data rest then
      '&' :: pyHtmlUnescapeGo fuel (rest.drop 4)
    else if listStartsWith "lt;".data rest then
      '<' :: pyHtmlUnescapeGo fuel (rest.drop 3)
    else if listStartsWith "gt;".data rest then
      '>' :: pyHtmlUnescapeGo fuel (rest.drop 3)
    else if listStartsWith "quot;".data rest then
      '"' :: pyHtmlUnescapeGo fuel (rest.drop 5)
    else if listStartsWith "#39;".data rest then
      Char.ofNat 39 :: pyHtmlUnescapeGo fuel (rest.drop 4)
    else '&' :: pyHtmlUnescapeGo fuel rest
  | fuel + 1, c :: rest => c :: pyHtmlUnescapeGo fuel rest

/-- Python `html.unescape` restricted to the five predefined XML entities;
no other entity reference occurs in the inputs of this development. -/
def pyHtmlUnescape (s : Str) : Str := pyHtmlUnescapeGo s.length s

/-- One fact record (`access_control_deviceN = "status*ip*mac*conn_type"`):
records with fewer than three `*`-separated parts, or whose MAC fails
`_normalize_mac`, leave the dictionary untouched. -/
def stepFact (router : Str) (d : List (Nat × NetgearDevice)) (rec : Nat × Str) :
    List (Nat × NetgearDevice) :=
  match pySplitChar '*' rec.2 with
  | status :: ip :: mac :: rest =>
    let conn_type := match rest with
      | t :: _ => pyStrip t
      | [] => []
    match normalize_mac (pyStrip mac) with
    | none => d
    | some nm =>
      dictInsert rec.1
        { router_ip := router, ip := pyStrip ip, mac := nm
          status := pyStrip status, conn_type := conn_type, name := none } d
  | _ => d

/-- The name applied to a name record's raw capture: unescape entities,
strip whitespace, strip surrounding angle brackets. -/
def processedName (raw : Str) : Str :=
  pyStripChars ['<', '>'] (pyStrip (pyHtmlUnescape raw))

/-- One name record (`access_control_device_nameN`): applied only to an
ordinal that already has a fact record, and only when the processed name is
nonempty. -/
def stepName (d : List (Nat × NetgearDevice)) (rec : Nat × Str) :
    List (Nat × NetgearDevice) :=
  match dictGet rec.1 d with
  | none => d
  | some dev =>
    let n := processedName rec.2
    if n = [] then d
    else dictInsert rec.1 { dev with name := some n } d

/-- `parse_access_control_html` over the two regex match lists (ordinal,
captured string), in page order: fact records first, then name records,
then the dictionary's values in insertion order. -/
def parse_access_control (router : Str) (facts names : List (Nat × Str)) :
    List NetgearDevice :=
  ((names.foldl stepName (facts.foldl (stepFact router) [])).map Prod.snd)

/-! ## Dictionary lemmas -/

theorem dictGet_insert_self [DecidableEq α] (k : α) (v : β) (d : List (α × β)) :
    dictGet k (dictInsert k v d) = some v := by
  induction d with
  | nil => simp [dictInsert, dictGet]
  | cons p rest ih =>
    obtain ⟨k', v'⟩ := p
    by_cases h : k' = k <;> simp [dictInsert, dictGet, h, ih]

theorem dictGet_insert_ne [DecidableEq α] {k k' : α} (v : β) (d : List (α × β))
    (h : k' ≠ k) : dictGet k' (dictInsert k v d) = dictGet k' d := by
  induction d with
  | nil =>
    simp only [dictInsert, dictGet]
    exact if_neg (fun hh => h hh.symm)
  | cons p rest ih =>
    obtain ⟨k₀, v₀⟩ := p
    by_cases h0 : k₀ = k
    · subst h0
      simp [dictInsert, dictGet, Ne.symm h]
    · by_cases h1 : k₀ = k' <;> simp [dictInsert, dictGet, h0, h1, h, ih]

theorem mem_keys_dictInsert [DecidableEq α] {a k : α} (v : β) (d : List (α × β)) :
    a ∈ (dictInsert k v d).map Prod.fst ↔ a = k ∨ a ∈ d.map Prod.fst := by
  induction d with
  | nil => simp [dictInsert]
  | cons p rest ih =>
    obtain ⟨k₀, v₀⟩ := p
    by_cases h0 : k₀ = k
    · subst h0; simp [dictInsert]
      try tauto
    · simp [dictInsert, h0, ih]
      try tauto

theorem nodup_keys_dictInsert [DecidableEq α] (k : α) (v : β) (d : List (α × β))
    (h : (d.map Prod.fst).Nodup) : ((dictInsert k v d).map Prod.fst).Nodup := by
  induction d with
  | nil => simp [dictInsert]
  | cons p rest ih =>
    obtain ⟨k₀, v₀⟩ := p
    simp only [List.map_cons, List.nodup_cons] at h
    by_cases h0 : k₀ = k
    · subst h0; simpa [dictInsert] using h
    · simp only [dictInsert, h0, if_false, List.map_cons, List.nodup_cons]
      refine ⟨fun hmem => ?_, ih h.2⟩
      rcases (mem_keys_dictInsert v rest).mp hmem with h1 | h1
      · exact h0 h1
      · exact h.1 h1

/-! ## Prefix lemmas for the three field-name families -/

theorem listStartsWith_append (p r : Str) : listStartsWith p (p ++ r) = true := by
  induction p with
  | nil => simp [listStartsWith]
  | cons c cs ih => simp [listStartsWith, ih]

theorem eq_append_of_listStartsWith {p n : Str} (h : listStartsWith p n = true) :
    n = p ++ n.drop p.length := by
  induction p generalizing n with
  | nil => simp
  | cons c cs ih =>
    cases n with
    | nil => simp [listStartsWith] at h
    | cons a rest =>
      simp only [listStartsWith, Bool.and_eq_true, decide_eq_true_eq] at h
      obtain ⟨rfl, h2⟩ := h
      simpa using ih h2

theorem fdbId_not_addr {n : Str} (h : listStartsWith fdbIdPre n = true) :
    listStartsWith addrPre n = false := by
  rw [eq_append_of_listStartsWith h]
  rfl

theorem fdbId_not_port {n : Str} (h : listStartsWith fdbIdPre n = true) :
    listStartsWith portPre n = false := by
  rw [eq_append_of_listStartsWith h]
  rfl

theorem addr_not_port {n : Str} (h : listStartsWith addrPre n = true) :
    listStartsWith portPre n = false := by
  rw [eq_append_of_listStartsWith h]
  rfl

theorem drop_length_append (p r : Str) : (p ++ r).drop p.length = r := by
  simp

/-! ## Sorting lemmas (the stable sort of the final loop) -/

theorem mem_insSorted {x z : Str} {l : List Str} :
    z ∈ insSorted x l ↔ z = x ∨ z ∈ l := by
  induction l with
  | nil => simp [insSorted]
  | cons y ys ih =>
    simp only [insSorted]
    split
    · simp [List.mem_cons]
    · simp [List.mem_cons, ih]
      tauto

theorem perm_insSorted (x : Str) (l : List Str) :
    List.Perm (insSorted x l) (x :: l) := by
  induction l with
  | nil => simp [insSorted]
  | cons y ys ih =>
    simp only [insSorted]
    split
    · exact List.Perm.refl _
    · exact (ih.cons y).trans (List.Perm.swap x y ys)

theorem perm_sortByKey (l : List Str) : List.Perm (sortByKey l) l := by
  induction l with
  | nil => simp [sortByKey]
  | cons x xs ih =>
    have : sortByKey (x :: xs) = insSorted x (sortByKey xs) := rfl
    rw [this]
    exact (perm_insSorted x (sortByKey xs)).trans (ih.cons x)

theorem pairwise_insSorted (x : Str) (l : List Str)
    (h : l.Pairwise (fun a b => sortKey a ≤ sortKey b)) :
    (insSorted x l).Pairwise (fun a b => sortKey a ≤ sortKey b) := by
  induction l with
  | nil => simp [insSorted]
  | cons y ys ih =>
    simp only [insSorted]
    rcases List.pairwise_cons.mp h with ⟨hy, hys⟩
    split
    · rename_i hxy
      refine List.pairwise_cons.mpr ⟨?_, h⟩
      intro z hz
      rcases List.mem_cons.mp hz with rfl | hz
      · exact hxy
      · exact le_trans hxy (hy z hz)
    · rename_i hxy
      refine List.pairwise_cons.mpr ⟨?_, ih hys⟩
      intro z hz
      rcases mem_insSorted.mp hz with rfl | hz
      · exact le_of_lt (lt_of_not_ge hxy)
      · exact hy z hz

theorem pairwise_sortByKey (l : List Str) :
    (sortByKey l).Pairwise (fun a b => sortKey a ≤ sortKey b) := by
  induction l with
  | nil => simp [sortByKey]
  | cons x xs ih => exact pairwise_insSorted x (sortByKey xs) ih

/-! ## Fold characterization: the dictionaries agree with the declarative view -/

/-- The contribution of a single input element to family `pre` at index
`idx`: its stripped value when its name is exactly `pre ++ idx`. -/
def occUpd (pre : Str) (f : InputField) (idx : Str) : Option Str :=
  match f.name with
  | some name => if name = pre ++ idx then some (pyStrip (f.value.getD [])) else none
  | none => none

theorem optOr_none_left (b : Option α) : optOr none b = b := rfl

theorem optOr_none_right (a : Option α) : optOr a none = a := by
  cases a <;> rfl

theorem optOr_assoc (a b c : Option α) :
    optOr (optOr a b) c = optOr a (optOr b c) := by
  cases a <;> rfl

theorem getLast?_cons_optOr (a : α) (l : List α) :
    (a :: l).getLast? = optOr l.getLast? (some a) := by
  induction l generalizing a with
  | nil => rfl
  | cons b t ih =>
    rw [List.getLast?_cons_cons, ih b, optOr_assoc]
    cases t.getLast? <;> rfl

theorem getLast?_append_optOr (l₁ l₂ : List α) :
    (l₁ ++ l₂).getLast? = optOr l₂.getLast? l₁.getLast? := by
  induction l₁ with
  | nil => simp [optOr_none_right]
  | cons a t ih =>
    rw [List.cons_append, getLast?_cons_optOr, ih, getLast?_cons_optOr, optOr_assoc]

theorem famOccs_cons (pre : Str) (f : InputField) (l : List InputField) (idx : Str) :
    famOccs pre (f :: l) idx = (occUpd pre f idx).toList ++ famOccs pre l idx := by
  obtain ⟨oname, oval⟩ := f
  cases oname with
  | none => simp [famOccs, occUpd]
  | some n =>
    by_cases h : n = pre ++ idx <;> simp [famOccs, occUpd, h]

theorem famOccs_nil (pre idx : Str) : famOccs pre [] idx = [] := rfl

theorem vlanAt_cons (f : InputField) (l : List InputField) (idx : Str) :
    vlanAt (f :: l) idx = optOr (vlanAt l idx) ((occUpd fdbIdPre f idx).bind pyInt) := by
  rw [vlanAt, famOccs_cons, List.filterMap_append, getLast?_append_optOr]
  congr 1
  cases h : occUpd fdbIdPre f idx with
  | none => rfl
  | some v =>
    cases hv : pyInt v <;> simp [hv]

theorem macAt_cons (f : InputField) (l : List InputField) (idx : Str) :
    macAt (f :: l) idx = optOr (macAt l idx) (occUpd addrPre f idx) := by
  rw [macAt, famOccs_cons, getLast?_append_optOr]
  congr 1
  cases h : occUpd addrPre f idx <;> simp

theorem portAt_cons (f : InputField) (l : List InputField) (idx : Str) :
    portAt (f :: l) idx = optOr (portAt l idx) ((occUpd portPre f idx).bind pyInt) := by
  rw [portAt, famOccs_cons, List.filterMap_append, getLast?_append_optOr]
  congr 1
  cases h : occUpd portPre f idx with
  | none => rfl
  | some v =>
    cases hv : pyInt v <;> simp [hv]

theorem fdbIdPre_ne_nil : fdbIdPre ≠ [] := by decide

theorem addrPre_ne_nil : addrPre ≠ [] := by decide

theorem portPre_ne_nil : portPre ≠ [] := by decide

theorem stepField_vlan_get (d : MacDicts) (f : InputField) (idx : Str) :
    dictGet idx (stepField d f).vlan =
      optOr ((occUpd fdbIdPre f idx).bind pyInt) (dictGet idx d.vlan) := by
  obtain ⟨oname, oval⟩ := f
  cases oname with
  | none => rfl
  | some n =>
    by_cases hnil : n = []
    · subst hnil
      have hne : ¬(([] : Str) = fdbIdPre ++ idx) := by
        intro h
        exact fdbIdPre_ne_nil (List.append_eq_nil.mp h.symm).1
      simp [stepField, occUpd, hne, optOr]
    · by_cases hfdb : listStartsWith fdbIdPre n = true
      · cases hint : pyInt (pyStrip (oval.getD [])) with
        | some v =>
          by_cases hidx : n = fdbIdPre ++ idx
          · have hdrop : n.drop fdbIdPre.length = idx := by
              rw [hidx]; exact drop_length_append _ _
            simp [stepField, occUpd, hnil, hfdb, hint, hidx, hdrop, optOr,
              dictGet_insert_self, listStartsWith_append, fdbIdPre_ne_nil]
          · have hkey : idx ≠ n.drop fdbIdPre.length := by
              intro hh
              exact hidx (by rw [eq_append_of_listStartsWith hfdb, ← hh])
            simp [stepField, occUpd, hnil, hfdb, hint, hidx, optOr,
              dictGet_insert_ne _ _ hkey]
        | none =>
          by_cases hidx : n = fdbIdPre ++ idx <;>
            simp [stepField, occUpd, hnil, hfdb, hint, hidx, optOr,
              listStartsWith_append, fdbIdPre_ne_nil]
      · have hni : ¬(n = fdbIdPre ++ idx) := by
          intro hh
          rw [hh] at hfdb
          exact hfdb (listStartsWith_append _ _)
        by_cases haddr : listStartsWith addrPre n = true
        · simp [stepField, occUpd, hnil, hfdb, haddr, hni, optOr]
        · by_cases hport : listStartsWith portPre n = true
          · cases hint : pyInt (pyStrip (oval.getD [])) with
            | some v =>
              simp [stepField, occUpd, hnil, hfdb, haddr, hport, hint, hni, optOr]
            | none =>
              simp [stepField, occUpd, hnil, hfdb, haddr, hport, hint, hni, optOr]
          · simp [stepField, occUpd, hnil, hfdb, haddr, hport, hni, optOr]

theorem sw_fdbId_addr_app (r : Str) : listStartsWith fdbIdPre (addrPre ++ r) = false := rfl

theorem sw_fdbId_port_app (r : Str) : listStartsWith fdbIdPre (portPre ++ r) = false := rfl

theorem sw_addr_port_app (r : Str) : listStartsWith addrPre (portPre ++ r) = false := rfl

theorem stepField_mac_get (d : MacDicts) (f : InputField) (idx : Str) :
    dictGet idx (stepField d f).mac =
      optOr (occUpd addrPre f idx) (dictGet idx d.mac) := by
  obtain ⟨oname, oval⟩ := f
  cases oname with
  | none => rfl
  | some n =>
    by_cases hnil : n = []
    · subst hnil
      have hne : ¬(([] : Str) = addrPre ++ idx) := by
        intro h
        exact addrPre_ne_nil (List.append_eq_nil.mp h.symm).1
      simp [stepField, occUpd, hne, optOr]
    · by_cases hfdb : listStartsWith fdbIdPre n = true
      · have hni : ¬(n = addrPre ++ idx) := by
          intro hh
          rw [hh] at hfdb
          have := fdbId_not_addr hfdb
          rw [listStartsWith_append] at this
          simp at this
        cases hint : pyInt (pyStrip (oval.getD [])) with
        | some v => simp [stepField, occUpd, hnil, hfdb, hint, hni, optOr]
        | none => simp [stepField, occUpd, hnil, hfdb, hint, hni, optOr]
      · by_cases haddr : listStartsWith addrPre n = true
        · by_cases hidx : n = addrPre ++ idx
          · have hdrop : n.drop addrPre.length = idx := by
              rw [hidx]; exact drop_length_append _ _
            simp [stepField, occUpd, hnil, hfdb, haddr, hidx, hdrop, optOr,
              dictGet_insert_self, listStartsWith_append, addrPre_ne_nil,
              sw_fdbId_addr_app]
          · have hkey : idx ≠ n.drop addrPre.length := by
              intro hh
              exact hidx (by rw [eq_append_of_listStartsWith haddr, ← hh])
            simp [stepField, occUpd, hnil, hfdb, haddr, hidx, optOr,
              dictGet_insert_ne _ _ hkey]
        · have hni : ¬(n = addrPre ++ idx) := by
            intro hh
            rw [hh] at haddr
            exact haddr (listStartsWith_append _ _)
          by_cases hport : listStartsWith portPre n = true
          · cases hint : pyInt (pyStrip (oval.getD [])) with
            | some v =>
              simp [stepField, occUpd, hnil, hfdb, haddr, hport, hint, hni, optOr]
            | none =>
              simp [stepField, occUpd, hnil, hfdb, haddr, hport, hint, hni, optOr]
          · simp [stepField, occUpd, hnil, hfdb, haddr, hport, hni, optOr]

theorem stepField_port_get (d : MacDicts) (f : InputField) (idx : Str) :
    dictGet idx (stepField d f).port =
      optOr ((occUpd portPre f idx).bind pyInt) (dictGet idx d.port) := by
  obtain ⟨oname, oval⟩ := f
  cases oname with
  | none => rfl
  | some n =>
    by_cases hnil : n = []
    · subst hnil
      have hne : ¬(([] : Str) = portPre ++ idx) := by
        intro h
        exact portPre_ne_nil (List.append_eq_nil.mp h.symm).1
      simp [stepField, occUpd, hne, optOr]
    · by_cases hfdb : listStartsWith fdbIdPre n = true
      · have hni : ¬(n = portPre ++ idx) := by
          intro hh
          rw [hh] at hfdb
          have := fdbId_not_port hfdb
          rw [listStartsWith_append] at this
          simp at this
        cases hint : pyInt (pyStrip (oval.getD [])) with
        | some v => simp [stepField, occUpd, hnil, hfdb, hint, hni, optOr]
        | none => simp [stepField, occUpd, hnil, hfdb, hint, hni, optOr]
      · by_cases haddr : listStartsWith addrPre n = true
        · have hni : ¬(n = portPre ++ idx) := by
            intro hh
            rw [hh] at haddr
            have := addr_not_port haddr
            rw [listStartsWith_append] at this
            simp at this
          simp [stepField, occUpd, hnil, hfdb, haddr, hni, optOr]
        · by_cases hport : listStartsWith portPre n = true
          · cases hint : pyInt (pyStrip (oval.getD [])) with
            | some v =>
              by_cases hidx : n = portPre ++ idx
              · have hdrop : n.drop portPre.length = idx := by
                  rw [hidx]; exact drop_length_append _ _
                simp [stepField, occUpd, hnil, hfdb, haddr, hport, hint, hidx,
                  hdrop, optOr, dictGet_insert_self, listStartsWith_append,
                  portPre_ne_nil, sw_fdbId_port_app, sw_addr_port_app]
              · have hkey : idx ≠ n.drop portPre.length := by
                  intro hh
                  exact hidx (by rw [eq_append_of_listStartsWith hport, ← hh])
                simp [stepField, occUpd, hnil, hfdb, haddr, hport, hint, hidx,
                  optOr, dictGet_insert_ne _ _ hkey]
            | none =>
              by_cases hidx : n = portPre ++ idx <;>
                simp [stepField, occUpd, hnil, hfdb, haddr, hport, hint, hidx,
                  optOr, listStartsWith_append, portPre_ne_nil,
                  sw_fdbId_port_app, sw_addr_port_app]
          · have hni : ¬(n = portPre ++ idx) := by
              intro hh
              rw [hh] at hport
              exact hport (listStartsWith_append _ _)
            simp [stepField, occUpd, hnil, hfdb, haddr, hport, hni, optOr]

theorem foldl_vlan_get (l : List InputField) :
    ∀ (d : MacDicts) (idx : Str),
      dictGet idx (l.foldl stepField d).vlan =
        optOr (vlanAt l idx) (dictGet idx d.vlan) := by
  induction l with
  | nil => intro d idx; simp [vlanAt, famOccs_nil, optOr]
  | cons f t ih =>
    intro d idx
    rw [List.foldl_cons, ih, stepField_vlan_get, vlanAt_cons, optOr_assoc]

theorem foldl_mac_get (l : List InputField) :
    ∀ (d : MacDicts) (idx : Str),
      dictGet idx (l.foldl stepField d).mac =
        optOr (macAt l idx) (dictGet idx d.mac) := by
  induction l with
  | nil => intro d idx; simp [macAt, famOccs_nil, optOr]
  | cons f t ih =>
    intro d idx
    rw [List.foldl_cons, ih, stepField_mac_get, macAt_cons, optOr_assoc]

theorem foldl_port_get (l : List InputField) :
    ∀ (d : MacDicts) (idx : Str),
      dictGet idx (l.foldl stepField d).port =
        optOr (portAt l idx) (dictGet idx d.port) := by
  induction l with
  | nil => intro d idx; simp [portAt, famOccs_nil, optOr]
  | cons f t ih =>
    intro d idx
    rw [List.foldl_cons, ih, stepField_port_get, portAt_cons, optOr_assoc]

theorem buildDicts_vlan_get (fields : List InputField) (idx : Str) :
    dictGet idx (buildDicts fields).vlan = vlanAt fields idx := by
  rw [buildDicts, foldl_vlan_get]
  exact optOr_none_right _

theorem buildDicts_mac_get (fields : List InputField) (idx : Str) :
    dictGet idx (buildDicts fields).mac = macAt fields idx := by
  rw [buildDicts, foldl_mac_get]
  exact optOr_none_right _

theorem buildDicts_port_get (fields : List InputField) (idx : Str) :
    dictGet idx (buildDicts fields).port = portAt fields idx := by
  rw [buildDicts, foldl_port_get]
  exact optOr_none_right _

theorem mem_keys_iff_dictGet [DecidableEq α] (a : α) (d : List (α × β)) :
    a ∈ d.map Prod.fst ↔ (dictGet a d).isSome = true := by
  induction d with
  | nil => simp [dictGet]
  | cons p t ih =>
    obtain ⟨k, v⟩ := p
    by_cases h : k = a
    · subst h; simp [dictGet]
    · simp [dictGet, h, ih, Ne.symm h]

theorem stepField_mac_cases (d : MacDicts) (f : InputField) :
    (stepField d f).mac = d.mac ∨
      ∃ k v, (stepField d f).mac = dictInsert k v d.mac := by
  obtain ⟨oname, oval⟩ := f
  cases oname with
  | none => left; rfl
  | some n =>
    simp only [stepField]
    split
    · left; rfl
    · split
      · split
        · left; rfl
        · left; rfl
      · split
        · right; exact ⟨_, _, rfl⟩
        · split
          · split
            · left; rfl
            · left; rfl
          · left; rfl

theorem foldl_mac_nodup (l : List InputField) :
    ∀ d : MacDicts, (d.mac.map Prod.fst).Nodup →
      ((l.foldl stepField d).mac.map Prod.fst).Nodup := by
  induction l with
  | nil => intro d h; exact h
  | cons f t ih =>
    intro d h
    rw [List.foldl_cons]
    refine ih _ ?_
    rcases stepField_mac_cases d f with hc | ⟨k, v, hc⟩
    · rw [hc]; exact h
    · rw [hc]; exact nodup_keys_dictInsert k v d.mac h

theorem buildDicts_mac_keys_nodup (fields : List InputField) :
    (((buildDicts fields).mac.map Prod.fst)).Nodup := by
  exact foldl_mac_nodup fields ⟨[], [], []⟩ List.nodup_nil

theorem buildDicts_mac_keys_mem (fields : List InputField) (a : Str) :
    a ∈ (buildDicts fields).mac.map Prod.fst ↔ famOccs addrPre fields a ≠ [] := by
  rw [mem_keys_iff_dictGet, buildDicts_mac_get]
  rw [macAt]
  cases h : (famOccs addrPre fields a).getLast? with
  | none => simp [List.getLast?_eq_none_iff.mp h]
  | some v =>
    simp only [Option.isSome_some, true_iff]
    intro hnil
    rw [hnil] at h
    simp at h

theorem joinIdx_buildDicts (fields : List InputField) (ip idx : Str) :
    joinIdx (buildDicts fields) ip idx =
      if completeB fields idx then some (entryFor fields ip idx) else none := by
  unfold joinIdx
  rw [buildDicts_mac_get, buildDicts_vlan_get, buildDicts_port_get]
  cases hm : macAt fields idx with
  | none => simp [completeB, hm]
  | some m =>
    cases hv : vlanAt fields idx with
    | none => simp [completeB, hm, hv]
    | some v =>
      cases hp : portAt fields idx with
      | none => simp [completeB, hm, hv, hp]
      | some p =>
        by_cases hme : m = []
        · subst hme
          simp [completeB, hm, hv, hp]
        · simp [completeB, hm, hv, hp, hme, entryFor,
            List.isEmpty_iff, Option.getD]

theorem filterMap_guard (p : α → Bool) (g : α → β) (l : List α) :
    l.filterMap (fun i => if p i then some (g i) else none) =
      (l.filter p).map g := by
  induction l with
  | nil => rfl
  | cons a t ih =>
    by_cases h : p a = true <;> simp [h, ih]

theorem completeB_iff (fields : List InputField) (idx : Str) :
    completeB fields idx = true ↔ completeIdx fields idx := by
  unfold completeB completeIdx
  cases hm : macAt fields idx with
  | none => simp
  | some m => by_cases hme : m = [] <;> simp [hme, List.isEmpty_iff]

theorem completeIdx_mac_mem {fields : List InputField} {idx : Str}
    (h : completeIdx fields idx) : famOccs addrPre fields idx ≠ [] := by
  obtain ⟨-, ⟨m, hm, -⟩, -⟩ := h
  intro hnil
  rw [macAt, hnil] at hm
  simp at hm

/-- The decoder, under the guard that every MAC-family index is an integer
literal, returns the numerically sorted complete indices mapped to their
entries. -/
theorem parse_characterization (fields : List InputField) (ip : Str)
    (hnum : ∀ idx, famOccs addrPre fields idx ≠ [] → (pyInt idx).isSome = true) :
    parse_dynamic_mac_table fields ip =
      some (((sortByKey ((buildDicts fields).mac.map Prod.fst)).filter
        (completeB fields)).map (entryFor fields ip)) := by
  unfold parse_dynamic_mac_table
  have hall : ((buildDicts fields).mac.map Prod.fst).all
      (fun k => (pyInt k).isSome) = true := by
    rw [List.all_eq_true]
    intro k hk
    exact hnum k ((buildDicts_mac_keys_mem fields k).mp hk)
  rw [if_pos hall]
  rw [show joinIdx (buildDicts fields) ip =
      (fun i => if completeB fields i then some (entryFor fields ip i) else none) from
    funext (joinIdx_buildDicts fields ip)]
  rw [filterMap_guard]

theorem famOccs_ne_nil_name {pre : Str} {fields : List InputField} {idx : Str}
    (h : famOccs pre fields idx ≠ []) :
    ∃ f ∈ fields, f.name = some (pre ++ idx) := by
  unfold famOccs at h
  rw [Ne, List.filterMap_eq_nil_iff] at h
  push_neg at h
  obtain ⟨f, hf, hsome⟩ := h
  refine ⟨f, hf, ?_⟩
  cases hn : f.name with
  | none => rw [hn] at hsome; simp at hsome
  | some n =>
    rw [hn] at hsome
    by_cases hni : n = pre ++ idx
    · rw [hni]
    · simp [hni] at hsome

/-! ## Concrete pages used by counterexamples and witnesses -/

/-- The switch address used in the concrete examples. -/
def switchIp : Str := "192.168.0.221".data

/-- Page where repeat index 1 occurs in all three families with integer VLAN
and port values, but with an empty MAC value. -/
def emptyMacPage : List InputField :=
  [⟨some "dot1qFdbId$repeat?1".data, some "10".data⟩,
   ⟨some "dot1qTpFdbAddress$repeat?1".data, some "".data⟩,
   ⟨some "dot1qTpFdbPort$repeat?1".data, some "5".data⟩]

/-- The end-to-end example page, with the `$repeat` infix the scan loop
actually requires in field names. -/
def repeatPage : List InputField :=
  [⟨some "dot1qFdbId$repeat?1".data, some "10".data⟩,
   ⟨some "dot1qTpFdbAddress$repeat?1".data, some "aabbccddeeff".data⟩,
   ⟨some "dot1qTpFdbPort$repeat?1".data, some "52".data⟩]

/-- The end-to-end example page exactly as the claim words it: field names
`dot1qFdbId?1`, `dot1qTpFdbAddress?1`, `dot1qTpFdbPort?1`. -/
def literalPage : List InputField :=
  [⟨some "dot1qFdbId?1".data, some "10".data⟩,
   ⟨some "dot1qTpFdbAddress?1".data, some "aabbccddeeff".data⟩,
   ⟨some "dot1qTpFdbPort?1".data, some "52".data⟩]

/-- C1 (counterexample): repeat index 1 appears in all three field families
(VLAN value integer, port value integer, MAC field present), yet the decoder
emits no entry, because the MAC value is empty. -/
theorem c1_counterexample :
    famOccs fdbIdPre emptyMacPage "1".data ≠ [] ∧
    famOccs addrPre emptyMacPage "1".data ≠ [] ∧
    famOccs portPre emptyMacPage "1".data ≠ [] ∧
    vlanAt emptyMacPage "1".data = some 10 ∧
    portAt emptyMacPage "1".data = some 5 ∧
    parse_dynamic_mac_table emptyMacPage switchIp = some [] := by
  refine ⟨by decide, by decide, by decide, by decide, by decide, by decide⟩

/-- C1 (amended): on any page whose MAC-family repeat indices are all
integer literals, the indexed hidden-field decoder succeeds and emits the
entries of exactly those indices present in all three families with integer
VLAN value, integer port value and nonempty MAC value — one entry per such
index, none for any other index, in ascending numeric index order. -/
theorem c1_complete_indices_emitted (fields : List InputField) (ip : Str)
    (hnum : ∀ idx, famOccs addrPre fields idx ≠ [] → (pyInt idx).isSome = true) :
    ∃ (out : List MacEntry) (idxs : List Str),
      parse_dynamic_mac_table fields ip = some out ∧
      idxs.Nodup ∧
      (∀ s, s ∈ idxs ↔ completeIdx fields s) ∧
      idxs.Pairwise (fun a b => sortKey a ≤ sortKey b) ∧
      out = idxs.map (entryFor fields ip) := by
  refine ⟨_, _, parse_characterization fields ip hnum, ?_, ?_, ?_, rfl⟩
  · exact List.Nodup.filter _
      ((perm_sortByKey _).nodup_iff.mpr (buildDicts_mac_keys_nodup fields))
  · intro s
    rw [List.mem_filter]
    constructor
    · rintro ⟨hmem, hcB⟩
      exact (completeB_iff _ _).mp hcB
    · intro hc
      exact ⟨(perm_sortByKey _).mem_iff.mpr
        ((buildDicts_mac_keys_mem _ _).mpr (completeIdx_mac_mem hc)),
        (completeB_iff _ _).mpr hc⟩
  · exact List.Pairwise.sublist (List.filter_sublist _) (pairwise_sortByKey _)

/-- C1 (witness): the amended theorem applied to the end-to-end example
page, whose only MAC-family index is the integer literal 1. -/
theorem c1_witness :
    ∃ (out : List MacEntry) (idxs : List Str),
      parse_dynamic_mac_table repeatPage switchIp = some out ∧
      idxs.Nodup ∧
      (∀ s, s ∈ idxs ↔ completeIdx repeatPage s) ∧
      idxs.Pairwise (fun a b => sortKey a ≤ sortKey b) ∧
      out = idxs.map (entryFor repeatPage switchIp) := by
  refine c1_complete_indices_emitted repeatPage switchIp ?_
  intro idx h
  obtain ⟨f, hf, hname⟩ := famOccs_ne_nil_name h
  have h25 : addrPre.length = 25 := by decide
  fin_cases hf
  · have hgoal : ("dot1qFdbId$repeat?1".data).length = (addrPre ++ idx).length := by
      have := congrArg (fun o => (Option.getD o []).length) hname
      simpa using this
    rw [List.length_append, h25] at hgoal
    have h19 : ("dot1qFdbId$repeat?1".data).length = 19 := by decide
    omega
  · have heq : ("dot1qTpFdbAddress$repeat?1".data) = addrPre ++ idx := by
      simpa using hname
    have h2 : addrPre ++ "1".data = addrPre ++ idx := by
      rw [← heq]; decide
    have hidx : idx = "1".data := (List.append_cancel_left h2).symm
    rw [hidx]
    decide
  · have hgoal : ("dot1qTpFdbPort$repeat?1".data).length = (addrPre ++ idx).length := by
      have := congrArg (fun o => (Option.getD o []).length) hname
      simpa using this
    rw [List.length_append, h25] at hgoal
    have h23 : ("dot1qTpFdbPort$repeat?1".data).length = 23 := by decide
    omega

/-- C2 (counterexample): on the page bearing exactly the hidden-field names
the claim states (`dot1qFdbId?1` and friends, without the `$repeat` infix),
the pipeline emits no entry at all: the scan loop only matches names with
the `$repeat` infix. -/
theorem c2_counterexample :
    (parse_dynamic_mac_table literalPage switchIp).map (fetch_mac_table_resolve []) =
      some [] ∧
    ([] : List ResolvedEntry) ≠
      [{ switch_ip := switchIp, vlan := 10, mac := "aa:bb:cc:dd:ee:ff".data,
         port_index := "52".data }] := by
  exact ⟨by decide, by decide⟩

/-- C2 (amended): with the `$repeat` infix in the field names
(`dot1qFdbId$repeat?1` = 10, `dot1qTpFdbAddress$repeat?1` = aabbccddeeff,
`dot1qTpFdbPort$repeat?1` = 52) and no interface-name mapping for index 52,
the pipeline produces exactly one entry with vlan 10, normalized MAC, and
the port index rendered as the string 52. -/
theorem c2_end_to_end_repeat_names :
    (parse_dynamic_mac_table repeatPage switchIp).map (fetch_mac_table_resolve []) =
      some [{ switch_ip := switchIp, vlan := 10, mac := "aa:bb:cc:dd:ee:ff".data,
              port_index := "52".data }] := by
  decide

/-- C8: a MAC-family hidden field whose repeat-index suffix is not an
integer literal makes the decoder raise (model: return `none`) from the
`int(x)` conversion in the final sort, rather than dropping the field or
returning a result list. -/
theorem c8_nonnumeric_suffix_raises (fields : List InputField) (ip idx : Str)
    (h1 : famOccs addrPre fields idx ≠ []) (h2 : pyInt idx = none) :
    parse_dynamic_mac_table fields ip = none := by
  unfold parse_dynamic_mac_table
  have hk : idx ∈ (buildDicts fields).mac.map Prod.fst :=
    (buildDicts_mac_keys_mem _ _).mpr h1
  have hcond : ¬(((buildDicts fields).mac.map Prod.fst).all
      (fun k => (pyInt k).isSome) = true) := by
    intro hall
    rw [List.all_eq_true] at hall
    have := hall idx hk
    rw [h2] at this
    simp at this
  rw [if_neg hcond]

/-- Page with a MAC-family field whose suffix `abc` is not an integer. -/
def badSuffixPage : List InputField :=
  [⟨some "dot1qTpFdbAddress$repeat?abc".data, some "aa".data⟩]

/-- C8 (witness): the theorem at the concrete page with suffix `abc`. -/
theorem c8_witness : parse_dynamic_mac_table badSuffixPage switchIp = none :=
  c8_nonnumeric_suffix_raises badSuffixPage switchIp "abc".data (by decide) (by decide)

/-- Page with a complete triple whose MAC value is 12 non-hex characters. -/
def nonHexPage : List InputField :=
  [⟨some "dot1qFdbId$repeat?1".data, some "1".data⟩,
   ⟨some "dot1qTpFdbAddress$repeat?1".data, some "zzzzzzzzzzzz".data⟩,
   ⟨some "dot1qTpFdbPort$repeat?1".data, some "2".data⟩]

/-- C6 (counterexample): the malformed (non-hex) 12-character MAC value
`zzzzzzzzzzzz` is emitted with colons inserted — modified, not passed
through unmodified. -/
theorem c6_counterexample :
    parse_dynamic_mac_table nonHexPage switchIp =
      some [{ vlan := 1, mac := "zz:zz:zz:zz:zz:zz".data, port_index := 2,
              switch_ip := switchIp }] ∧
    "zz:zz:zz:zz:zz:zz".data ≠ "zzzzzzzzzzzz".data := by
  exact ⟨by decide, by decide⟩

/-- C6 (amended): a malformed MAC hex value (odd length or non-hex after
strip/lower-case) is never rejected, but it is not always passed through
unmodified either: after lower-casing, a value of even length at least 12
still gets colons inserted every two characters, and only the remaining
malformed values (odd length, or even length below 12) pass through as the
stripped, lower-cased text. -/
theorem c6_malformed_mac_format (s : Str)
    (_hmal : (pyLower (pyStrip s)).length % 2 = 1 ∨
      ∃ c ∈ pyLower (pyStrip s), isHexLower c = false) :
    format_mac s =
      if (pyLower (pyStrip s)).length % 2 = 0 ∧ 12 ≤ (pyLower (pyStrip s)).length
      then joinSep [':'] (pairsOf (pyLower (pyStrip s)))
      else pyLower (pyStrip s) := by
  unfold format_mac
  by_cases h1 : (pyLower (pyStrip s)).length = 12 <;>
    by_cases h2 : (pyLower (pyStrip s)).all isHexLower = true <;>
    by_cases h3 : (pyLower (pyStrip s)).length % 2 = 0 <;>
    by_cases h4 : 12 ≤ (pyLower (pyStrip s)).length <;>
    simp only [h1, h2, h3, h4] <;>
    simp [h1, h2, h3, h4]

/-! ## MAC normalization idempotence (C3) -/

/-- The inline MAC normalization of the scraper copy of
`_parse_dynamic_mac_table` (`mac_hex.lower()` followed by a colon every two
characters of the whole value). -/
def scraper_format_mac (s : Str) : Str := joinSep [':'] (pairsOf (pyLower s))

/-- A canonical colon-separated MAC built from byte pairs. -/
def canonicalMac (bs : List (Char × Char)) : Str :=
  joinSep [':'] (bs.map (fun p => [p.1, p.2]))

/-- The bare hex digits of the same byte pairs. -/
def macBytes (bs : List (Char × Char)) : Str :=
  (bs.map (fun p => [p.1, p.2])).flatten

theorem canonicalMac_nil : canonicalMac [] = [] := rfl

theorem canonicalMac_single (p : Char × Char) : canonicalMac [p] = [p.1, p.2] := rfl

theorem canonicalMac_cons (p : Char × Char) (t : List (Char × Char)) (ht : t ≠ []) :
    canonicalMac (p :: t) = p.1 :: p.2 :: ':' :: canonicalMac t := by
  cases t with
  | nil => exact absurd rfl ht
  | cons q t2 => rfl

theorem mem_canonicalMac {bs : List (Char × Char)} {c : Char}
    (hc : c ∈ canonicalMac bs) : c = ':' ∨ ∃ p ∈ bs, c = p.1 ∨ c = p.2 := by
  induction bs with
  | nil => simp [canonicalMac_nil] at hc
  | cons p t ih =>
    cases t with
    | nil =>
      rw [canonicalMac_single] at hc
      simp only [List.mem_cons, List.not_mem_nil, or_false] at hc
      rcases hc with rfl | rfl
      · exact Or.inr ⟨p, by simp⟩
      · exact Or.inr ⟨p, by simp⟩
    | cons q t2 =>
      rw [canonicalMac_cons p (q :: t2) (by simp)] at hc
      simp only [List.mem_cons] at hc
      rcases hc with rfl | rfl | rfl | hc
      · exact Or.inr ⟨p, by simp⟩
      · exact Or.inr ⟨p, by simp⟩
      · exact Or.inl rfl
      · rcases ih hc with h | ⟨r, hr, hcr⟩
        · exact Or.inl h
        · exact Or.inr ⟨r, List.mem_cons_of_mem p hr, hcr⟩

theorem length_canonicalMac (bs : List (Char × Char)) (h : bs ≠ []) :
    (canonicalMac bs).length = 3 * bs.length - 1 := by
  induction bs with
  | nil => exact absurd rfl h
  | cons p t ih =>
    cases t with
    | nil => rfl
    | cons q t2 =>
      rw [canonicalMac_cons p (q :: t2) (by simp)]
      simp only [List.length_cons]
      rw [ih (by simp)]
      simp only [List.length_cons]
      omega

theorem macBytes_cons (p : Char × Char) (t : List (Char × Char)) :
    macBytes (p :: t) = p.1 :: p.2 :: macBytes t := rfl

theorem length_macBytes (bs : List (Char × Char)) :
    (macBytes bs).length = 2 * bs.length := by
  induction bs with
  | nil => rfl
  | cons p t ih => rw [macBytes_cons]; simp only [List.length_cons]; omega

theorem pairsOf_macBytes (bs : List (Char × Char)) :
    pairsOf (macBytes bs) = bs.map (fun p => [p.1, p.2]) := by
  induction bs with
  | nil => rfl
  | cons p t ih =>
    rw [macBytes_cons]
    have hstep : pairsOf (p.1 :: p.2 :: macBytes t) =
        [p.1, p.2] :: pairsOf (macBytes t) := rfl
    rw [hstep, ih]
    rfl

theorem joinSep_colon_map (bs : List (Char × Char)) :
    joinSep [':'] (bs.map (fun p => [p.1, p.2])) = canonicalMac bs := rfl

theorem dropWhile_eq_self_of_none {p : Char → Bool} {s : Str}
    (h : ∀ c ∈ s, p c = false) : s.dropWhile p = s := by
  cases s with
  | nil => rfl
  | cons c t => simp [List.dropWhile_cons, h c (by simp)]

theorem pyStrip_eq_self {s : Str} (h : ∀ c ∈ s, isPySpace c = false) :
    pyStrip s = s := by
  unfold pyStrip
  rw [dropWhile_eq_self_of_none h,
    dropWhile_eq_self_of_none (fun c hc => h c (List.mem_reverse.mp hc)),
    List.reverse_reverse]

theorem pyLowerChar_eq_self {c : Char} (h : c.toNat < 65 ∨ 90 < c.toNat) :
    pyLowerChar c = c := by
  unfold pyLowerChar
  rw [if_neg]
  omega

theorem pyLower_eq_self {s : Str} (h : ∀ c ∈ s, c.toNat < 65 ∨ 90 < c.toNat) :
    pyLower s = s := by
  induction s with
  | nil => rfl
  | cons c t ih =>
    have hc := pyLowerChar_eq_self (h c (by simp))
    have ht := ih (fun x hx => h x (List.mem_cons_of_mem c hx))
    simp only [pyLower, List.map_cons] at ht ⊢
    rw [hc, ht]

theorem hexLower_toNat {c : Char} (h : isHexLower c = true) :
    (48 ≤ c.toNat ∧ c.toNat ≤ 57) ∨ (97 ≤ c.toNat ∧ c.toNat ≤ 102) := by
  unfold isHexLower isDigitCh at h
  simp only [Bool.or_eq_true, Bool.and_eq_true, decide_eq_true_eq] at h
  exact h

theorem isPySpace_false_of_hex {c : Char} (h : isHexLower c = true) :
    isPySpace c = false := by
  have := hexLower_toNat h
  unfold isPySpace
  simp only [Bool.or_eq_false_iff, decide_eq_false_iff_not]
  omega

theorem hex_ne_colon {c : Char} (h : isHexLower c = true) : c ≠ ':' := by
  intro hc
  subst hc
  exact absurd h (by decide)

theorem hex_ne_dash {c : Char} (h : isHexLower c = true) : c ≠ '-' := by
  intro hc
  subst hc
  exact absurd h (by decide)

theorem removeChar_eq_self {x : Char} {s : Str} (h : ∀ c ∈ s, c ≠ x) :
    removeChar x s = s := by
  unfold removeChar
  rw [List.filter_eq_self]
  intro a ha
  simpa using h a ha

theorem mem_macBytes {bs : List (Char × Char)} {c : Char}
    (hc : c ∈ macBytes bs) : ∃ p ∈ bs, c = p.1 ∨ c = p.2 := by
  induction bs with
  | nil => simp [macBytes] at hc
  | cons p t ih =>
    rw [macBytes_cons] at hc
    simp only [List.mem_cons] at hc
    rcases hc with rfl | rfl | hc
    · exact ⟨p, by simp⟩
    · exact ⟨p, by simp⟩
    · obtain ⟨r, hr, hcr⟩ := ih hc
      exact ⟨r, List.mem_cons_of_mem p hr, hcr⟩

theorem removeChar_colon_canonical (bs : List (Char × Char))
    (hhex : ∀ p ∈ bs, isHexLower p.1 = true ∧ isHexLower p.2 = true) :
    removeChar ':' (canonicalMac bs) = macBytes bs := by
  induction bs with
  | nil => rfl
  | cons p t ih =>
    have h1 := hex_ne_colon (hhex p (by simp)).1
    have h2 := hex_ne_colon (hhex p (by simp)).2
    have iht := ih (fun q hq => hhex q (List.mem_cons_of_mem p hq))
    cases t with
    | nil =>
      rw [canonicalMac_single]
      simp [removeChar, macBytes, h1, h2]
    | cons q t2 =>
      rw [canonicalMac_cons p (q :: t2) (by simp), macBytes_cons]
      simp only [removeChar, List.filter_cons, ne_eq, decide_not] at iht ⊢
      simp [h1, h2, iht]

/-- C3 (counterexample): the scraper copy's inline MAC normalization
(lower-case plus a colon every two characters of the whole value) applied to
an already-canonical colon-separated MAC does not return it unchanged. -/
theorem c3_counterexample :
    scraper_format_mac "aa:bb:cc:dd:ee:ff".data ≠ "aa:bb:cc:dd:ee:ff".data := by
  decide

/-- C3 (amended): for every 6-byte MAC already in canonical lowercase
colon-separated form, the collector's `_format_mac` and the netgear
`_normalize_mac` both return it unchanged (the scraper copy's inline
normalization does not, per the counterexample). -/
theorem c3_normalization_idempotent (bs : List (Char × Char)) (h6 : bs.length = 6)
    (hhex : ∀ p ∈ bs, isHexLower p.1 = true ∧ isHexLower p.2 = true) :
    format_mac (canonicalMac bs) = canonicalMac bs ∧
    normalize_mac (canonicalMac bs) = some (canonicalMac bs) := by
  have hbs_ne : bs ≠ [] := by
    intro h
    rw [h] at h6
    simp at h6
  have hchar : ∀ c ∈ canonicalMac bs,
      isPySpace c = false ∧ (c.toNat < 65 ∨ 90 < c.toNat) := by
    intro c hc
    rcases mem_canonicalMac hc with rfl | ⟨p, hp, hcp⟩
    · exact ⟨by decide, by decide⟩
    · have hx : isHexLower c = true := by
        rcases hcp with rfl | rfl
        · exact (hhex p hp).1
        · exact (hhex p hp).2
      refine ⟨isPySpace_false_of_hex hx, ?_⟩
      rcases hexLower_toNat hx with h | h <;> omega
  have hstrip : pyStrip (canonicalMac bs) = canonicalMac bs :=
    pyStrip_eq_self (fun c hc => (hchar c hc).1)
  have hlower : pyLower (canonicalMac bs) = canonicalMac bs :=
    pyLower_eq_self (fun c hc => (hchar c hc).2)
  have hlen : (canonicalMac bs).length = 17 := by
    rw [length_canonicalMac bs hbs_ne, h6]
  have hmb_hex : ∀ c ∈ macBytes bs, isHexLower c = true := by
    intro c hc
    obtain ⟨p, hp, hcp⟩ := mem_macBytes hc
    rcases hcp with rfl | rfl
    · exact (hhex p hp).1
    · exact (hhex p hp).2
  constructor
  · simp [format_mac, hstrip, hlower, hlen]
  · have hne : canonicalMac bs ≠ [] := by
      intro h
      rw [h] at hlen
      simp at hlen
    unfold normalize_mac
    rw [if_neg hne, removeChar_colon_canonical bs hhex,
      removeChar_eq_self (fun c hc => hex_ne_dash (hmb_hex c hc)),
      pyStrip_eq_self (fun c hc => isPySpace_false_of_hex (hmb_hex c hc)),
      pyLower_eq_self (fun c hc => by
        rcases hexLower_toNat (hmb_hex c hc) with h | h <;> omega)]
    have hcond : ((macBytes bs).length = 12 && (macBytes bs).all isHexLower) = true := by
      simp only [Bool.and_eq_true, decide_eq_true_eq]
      exact ⟨by rw [length_macBytes, h6], List.all_eq_true.mpr hmb_hex⟩
    rw [if_pos hcond, pairsOf_macBytes, joinSep_colon_map]

/-- The canonical example MAC as byte pairs. -/
def exMacPairs : List (Char × Char) :=
  [('a', 'a'), ('b', 'b'), ('c', 'c'), ('d', 'd'), ('e', 'e'), ('f', 'f')]

/-- C3 (witness): the amended theorem at `aa:bb:cc:dd:ee:ff`. -/
theorem c3_witness :
    format_mac (canonicalMac exMacPairs) = canonicalMac exMacPairs ∧
    normalize_mac (canonicalMac exMacPairs) = some (canonicalMac exMacPairs) :=
  c3_normalization_idempotent exMacPairs (by decide) (by decide)

/-! ## Port resolution is total (C7) -/

theorem isPySpace_natDigitChar (m : Nat) : isPySpace (natDigitChar m) = false := by
  unfold natDigitChar
  have h : m % 10 < 10 := Nat.mod_lt _ (by omega)
  revert h
  generalize m % 10 = k
  intro h
  interval_cases k <;> decide

theorem natToStrGo_no_space (fuel : Nat) :
    ∀ (n : Nat) (acc : Str), (∀ c ∈ acc, isPySpace c = false) →
      ∀ c ∈ natToStrGo fuel n acc, isPySpace c = false := by
  induction fuel with
  | zero => intro n acc h c hc; exact h c hc
  | succ fuel ih =>
    intro n acc h c hc
    simp only [natToStrGo] at hc
    by_cases hn : n = 0
    · rw [if_pos hn] at hc
      exact h c hc
    · rw [if_neg hn] at hc
      refine ih (n / 10) _ ?_ c hc
      intro x hx
      rcases List.mem_cons.mp hx with rfl | hx
      · exact isPySpace_natDigitChar _
      · exact h x hx

theorem natToStr_no_space (n : Nat) : ∀ c ∈ natToStr n, isPySpace c = false := by
  unfold natToStr
  by_cases hn : n = 0
  · rw [if_pos hn]
    intro c hc
    rcases List.mem_singleton.mp hc with rfl
    decide
  · rw [if_neg hn]
    exact natToStrGo_no_space _ _ _ (by simp)

theorem intToStr_no_space (i : Int) : ∀ c ∈ intToStr i, isPySpace c = false := by
  unfold intToStr
  by_cases hi : i < 0
  · rw [if_pos hi]
    intro c hc
    rcases List.mem_cons.mp hc with rfl | hc
    · decide
    · exact natToStr_no_space _ c hc
  · rw [if_neg hi]
    exact natToStr_no_space _

theorem pyStrip_intToStr (i : Int) : pyStrip (intToStr i) = intToStr i :=
  pyStrip_eq_self (intToStr_no_space i)

theorem dictGet_mem [DecidableEq α] {k : α} {v : β} {d : List (α × β)}
    (h : dictGet k d = some v) : (k, v) ∈ d := by
  induction d with
  | nil => simp [dictGet] at h
  | cons p t ih =>
    obtain ⟨k0, v0⟩ := p
    by_cases hk : k0 = k
    · subst hk
      rw [dictGet, if_pos rfl] at h
      simp only [Option.some.injEq] at h
      subst h
      exact List.mem_cons_self _ _
    · rw [dictGet, if_neg hk] at h
      exact List.mem_cons_of_mem _ (ih h)

/-- C7: the cross-reference resolution of `fetch_mac_table` never fails and
never drops an entry: over any interface-name map whose names are nonempty
and stripped (as `_parse_portdb_xml` produces, and vacuously for the empty
map used when the portDB source is unavailable or unparseable), every entry
is emitted, with the mapped port name when the map contains its raw index
and the raw index rendered as a string otherwise. -/
theorem c7_resolver_total (m : List (Int × Str)) (entries : List MacEntry)
    (hm : ∀ p ∈ m, p.2 ≠ [] ∧ pyStrip p.2 = p.2) :
    fetch_mac_table_resolve m entries =
      entries.map (fun e =>
        { switch_ip := e.switch_ip, vlan := e.vlan, mac := e.mac,
          port_index := match dictGet e.port_index m with
            | some n => n
            | none => intToStr e.port_index }) ∧
    (fetch_mac_table_resolve m entries).length = entries.length := by
  constructor
  · unfold fetch_mac_table_resolve
    apply List.map_congr_left
    intro e _
    have hport : resolve_port m e.port_index =
        (match dictGet e.port_index m with
          | some n => n
          | none => intToStr e.port_index) := by
      unfold resolve_port
      cases hg : dictGet e.port_index m with
      | none => simpa using pyStrip_intToStr e.port_index
      | some n =>
        obtain ⟨hne, hstr⟩ := hm _ (dictGet_mem hg)
        simp only at hne hstr
        simp [hne, hstr]
    rw [hport]
  · simp [fetch_mac_table_resolve]

/-- The interface-name map of the C7 witness. -/
def exMap : List (Int × Str) := [(52, "GE52".data)]

/-- The two-entry table of the C7 witness. -/
def exEntries : List MacEntry :=
  [{ vlan := 10, mac := "aa:bb:cc:dd:ee:ff".data, port_index := 52,
     switch_ip := switchIp },
   { vlan := 1, mac := "00:11:22:33:44:55".data, port_index := 7,
     switch_ip := switchIp }]

/-- C7 (witness): the theorem at a two-entry table and one-name map — index
52 resolves to its port name, index 7 falls back to the string 7. -/
theorem c7_witness :
    fetch_mac_table_resolve exMap exEntries =
      exEntries.map (fun e =>
        { switch_ip := e.switch_ip, vlan := e.vlan, mac := e.mac,
          port_index := match dictGet e.port_index exMap with
            | some n => n
            | none => intToStr e.port_index }) ∧
    (fetch_mac_table_resolve exMap exEntries).length = exEntries.length :=
  c7_resolver_total exMap exEntries (by decide)

/-- C6 (witness): the amended theorem at the malformed value `zzzz` (even
length below 12): passed through as the stripped lower-cased text. -/
theorem c6_witness :
    format_mac "zzzz".data =
      if (pyLower (pyStrip "zzzz".data)).length % 2 = 0 ∧
          12 ≤ (pyLower (pyStrip "zzzz".data)).length
      then joinSep [':'] (pairsOf (pyLower (pyStrip "zzzz".data)))
      else pyLower (pyStrip "zzzz".data) :=
  c6_malformed_mac_format "zzzz".data (Or.inr ⟨'z', by decide, by decide⟩)

/-! ## System summary claims (C5) -/

/-- A page that matches the system-summary fingerprint but decodes to zero
fields: the stable serial-number input is present with an empty value. -/
def emptySummaryPage : List InputField :=
  [⟨some "rlPhdUnitGenParamSerialNum$repeat?1".data, some "".data⟩]

/-- C5 (counterexample): a located, fingerprint-matching page whose decode
yields zero fields makes `fetch_system_summary` return success carrying
only `switch_ip` — it does not raise. -/
theorem c5_counterexample :
    looks_like_system_summary emptySummaryPage = true ∧
    parse_system_summary emptySummaryPage = [] ∧
    fetch_system_summary_result (some emptySummaryPage) switchIp =
      Except.ok [("switch_ip".data, switchIp)] := by
  refine ⟨by decide, by decide, by rfl⟩

/-- C5 (amended): an empty decode of a located page is treated as success —
the returned mapping holds only `switch_ip`; the error is raised exactly
when no candidate page matched the fingerprint. -/
theorem c5_empty_decode_is_success (page : List InputField) (ip : Str)
    (_hfp : looks_like_system_summary page = true)
    (hempty : parse_system_summary page = []) :
    fetch_system_summary_result (some page) ip =
      Except.ok [("switch_ip".data, ip)] ∧
    fetch_system_summary_result none ip = Except.error summaryErr := by
  constructor
  · simp [fetch_system_summary_result, hempty, dictInsert]
  · rfl

/-- C5 (witness): the amended theorem at the concrete fingerprint-matching
page with no decodable fields. -/
theorem c5_witness :
    fetch_system_summary_result (some emptySummaryPage) switchIp =
      Except.ok [("switch_ip".data, switchIp)] ∧
    fetch_system_summary_result none switchIp = Except.error summaryErr :=
  c5_empty_decode_is_success emptySummaryPage switchIp (by decide) (by decide)

/-! ## Netgear access-control claims (C4, C9, C10) -/

/-- C4: a fact record whose MAC (the third `*`-field, stripped) fails the
strict 12-hex-digit validation of `_normalize_mac` contributes nothing to
the output: the parse of any match lists containing it equals the parse
without it, whatever name records exist. -/
theorem c4_invalid_mac_contributes_nothing (router : Str)
    (facts1 facts2 names : List (Nat × Str)) (idx : Nat) (raw : Str)
    (p0 p1 pmac : Str) (rest : List Str)
    (hsplit : pySplitChar '*' raw = p0 :: p1 :: pmac :: rest)
    (hbad : normalize_mac (pyStrip pmac) = none) :
    parse_access_control router (facts1 ++ (idx, raw) :: facts2) names =
      parse_access_control router (facts1 ++ facts2) names := by
  unfold parse_access_control
  have hstep : ∀ d, stepFact router d (idx, raw) = d := by
    intro d
    simp [stepFact, hsplit, hbad]
  rw [List.foldl_append, List.foldl_cons, hstep, ← List.foldl_append]

/-- C4 (witness): the theorem at one invalid-MAC fact record and a matching
name record. -/
theorem c4_witness :
    parse_access_control "r".data
        ([] ++ (0, "Allowed*192.168.1.5*zz*wired".data) :: []) [(0, "PC".data)] =
      parse_access_control "r".data ([] ++ []) [(0, "PC".data)] :=
  c4_invalid_mac_contributes_nothing "r".data [] [] [(0, "PC".data)] 0
    "Allowed*192.168.1.5*zz*wired".data
    "Allowed".data "192.168.1.5".data "zz".data ["wired".data]
    (by decide) (by decide)

/-- C9: a fact record with fewer than three `*`-fields leaves the
dictionary untouched; a record with exactly three fields (status, ip, mac)
whose MAC validates produces an entry whose connection type is the empty
string; with a fourth field present, that field (stripped) is the
connection type. -/
theorem c9_fact_record_arity (router : Str) (d : List (Nat × NetgearDevice))
    (idx : Nat) :
    (∀ raw, (pySplitChar '*' raw).length < 3 → stepFact router d (idx, raw) = d) ∧
    (∀ raw status ip mac nm, pySplitChar '*' raw = [status, ip, mac] →
      normalize_mac (pyStrip mac) = some nm →
      stepFact router d (idx, raw) =
        dictInsert idx
          { router_ip := router, ip := pyStrip ip, mac := nm
            status := pyStrip status, conn_type := [], name := none } d) ∧
    (∀ raw status ip mac ct rest nm,
      pySplitChar '*' raw = status :: ip :: mac :: ct :: rest →
      normalize_mac (pyStrip mac) = some nm →
      stepFact router d (idx, raw) =
        dictInsert idx
          { router_ip := router, ip := pyStrip ip, mac := nm
            status := pyStrip status, conn_type := pyStrip ct, name := none } d) := by
  refine ⟨?_, ?_, ?_⟩
  · intro raw hlen
    cases hs : pySplitChar '*' raw with
    | nil => simp [stepFact, hs]
    | cons a t =>
      cases t with
      | nil => simp [stepFact, hs]
      | cons b t2 =>
        cases t2 with
        | nil => simp [stepFact, hs]
        | cons c t3 =>
          rw [hs] at hlen
          simp at hlen
          omega
  · intro raw status ip mac nm hs hn
    simp [stepFact, hs, hn]
  · intro raw status ip mac ct rest nm hs hn
    simp [stepFact, hs, hn]

/-- C9 (witness): the theorem at a two-field record (no entry), a
three-field record (empty connection type) and a four-field record. -/
theorem c9_witness :
    stepFact "r".data [] (0, "a*b".data) = [] ∧
    stepFact "r".data [] (0, "Allowed*192.168.1.199*000c29b294c0".data) =
      dictInsert 0
        { router_ip := "r".data, ip := "192.168.1.199".data
          mac := "00:0c:29:b2:94:c0".data, status := "Allowed".data
          conn_type := [], name := none } [] ∧
    stepFact "r".data [] (0, "Allowed*192.168.1.199*000c29b294c0*wired".data) =
      dictInsert 0
        { router_ip := "r".data, ip := "192.168.1.199".data
          mac := "00:0c:29:b2:94:c0".data, status := "Allowed".data
          conn_type := "wired".data, name := none } [] :=
  ⟨(c9_fact_record_arity "r".data [] 0).1 "a*b".data (by decide),
   (c9_fact_record_arity "r".data [] 0).2.1 "Allowed*192.168.1.199*000c29b294c0".data
     "Allowed".data "192.168.1.199".data "000c29b294c0".data
     "00:0c:29:b2:94:c0".data (by decide) (by decide),
   (c9_fact_record_arity "r".data [] 0).2.2
     "Allowed*192.168.1.199*000c29b294c0*wired".data
     "Allowed".data "192.168.1.199".data "000c29b294c0".data "wired".data []
     "00:0c:29:b2:94:c0".data (by decide) (by decide)⟩

/-- A device entry used by the C10 examples. -/
def exDev : NetgearDevice :=
  { router_ip := "r".data, ip := "192.168.1.199".data
    mac := "00:0c:29:b2:94:c0".data, status := "Allowed".data
    conn_type := "wired".data, name := none }

/-- C10 (counterexample): the literal placeholder name record `<Unknown>`
does not process to empty — stripping its angle brackets leaves `Unknown`,
which IS attached as the entry name instead of leaving it `None`. -/
theorem c10_counterexample :
    processedName "<Unknown>".data = "Unknown".data ∧
    parse_access_control "r".data
        [(0, "Allowed*192.168.1.199*000c29b294c0*wired".data)]
        [(0, "<Unknown>".data)] =
      [{ exDev with name := some "Unknown".data }] ∧
    some "Unknown".data ≠ (none : Option Str) := by
  refine ⟨by decide, by decide, by decide⟩

/-- C10 (amended): a name record's value is entity-unescaped,
whitespace-trimmed and angle-bracket-stripped before attachment; when the
processed result is empty (an empty string, or text consisting only of
angle brackets and whitespace such as a bare `<>`) the record leaves the
dictionary unchanged and the name stays absent; when it is nonempty it is
attached to the matching entry — in particular `<Unknown>` processes to
`Unknown` and is attached rather than discarded. -/
theorem c10_name_processing (d : List (Nat × NetgearDevice)) (idx : Nat) :
    (∀ raw, processedName raw = [] → stepName d (idx, raw) = d) ∧
    (∀ raw dev, dictGet idx d = some dev → processedName raw ≠ [] →
      stepName d (idx, raw) =
        dictInsert idx { dev with name := some (processedName raw) } d) := by
  constructor
  · intro raw hpn
    unfold stepName
    cases hg : dictGet idx d with
    | none => rfl
    | some dev => simp [hg, hpn, processedName] at hpn ⊢; simp [hpn]
  · intro raw dev hg hpn
    simp [stepName, hg, hpn]

/-- C10 (witness): the amended theorem at a bare `<>` record (name left
unchanged) and at an entity-escaped record ` &lt;x&gt; ` (name `x`
attached). -/
theorem c10_witness :
    stepName [(0, exDev)] (0, "<>".data) = [(0, exDev)] ∧
    stepName [(0, exDev)] (0, " &lt;x&gt; ".data) =
      dictInsert 0 { exDev with name := some (processedName " &lt;x&gt; ".data) }
        [(0, exDev)] :=
  ⟨(c10_name_processing [(0, exDev)] 0).1 "<>".data (by decide),
   (c10_name_processing [(0, exDev)] 0).2 " &lt;x&gt; ".data exDev
     (by decide) (by decide)⟩
